import Mathlib

/-!
Verification of the alignment-and-estimation engine of the InvestmentLog
repository (ticker_factor_beta_loader.py and factor_returns_loader.py),
as a shallow embedding: dates are rata-die integers (with an explicit
civil-calendar model where month arithmetic matters), numeric values are
exact rationals, pandas NaN cells are `Option` values, and Python
exceptions are `Except`.
-/

namespace InvLog

/-! ## Runtime constants (ticker_factor_beta_loader.py, lines 81-90) -/

/-- WINDOW_DAYS = 252: maximum number of observations used in a regression. -/
def WINDOW_DAYS : Nat := 252

/-- MIN_NOBS = 60: minimum number of observations. -/
def MIN_NOBS : Nat := 60

/-- LAG_POLICY_DEFAULT = 0. -/
def LAG_POLICY_DEFAULT : Int := 0

/-- DURATION_US10Y = 8.5 (factor_returns_loader.py, line 62). -/
def DURATION_US10Y : ℚ := 17 / 2

/-! ## parse_lag_policy (ticker_factor_beta_loader.py, lines 169-178)

`re.search(r"[-+]?\d+", s)` finds the leftmost match of an optional sign
followed by a maximal nonempty digit run; `int` on that match is the value.
-/

/-- Numeric value of a decimal digit character. -/
def digitVal (c : Char) : Nat := c.toNat - 48

/-- Accumulate a maximal leading digit run into `acc`, returning the value
and the rest of the characters (the greedy semantics of a digit run). -/
def readDigits : List Char → Nat → Nat × List Char
  | c :: cs, acc => if c.isDigit then readDigits cs (acc * 10 + digitVal c) else (acc, c :: cs)
  | [], acc => (acc, [])

/-- Numeric value of a digit list (what Python `int` returns on it). -/
def natOfDigits (ds : List Char) : Nat := ds.foldl (fun a c => a * 10 + digitVal c) 0

/-- Whether a character list starts with a decimal digit. -/
def headIsDigit : List Char → Bool
  | c :: _ => c.isDigit
  | [] => false

/-- Leftmost match of the pattern sign?-digits+ in a character list, as an
integer; `none` when no such match exists.  This is the semantics of
`re.search(r"[-+]?\d+", s)` followed by `int(match.group())`. -/
def searchSignedInt : List Char → Option Int
  | [] => none
  | c :: cs =>
    if c.isDigit then some (Int.ofNat (readDigits (c :: cs) 0).1)
    else if (c == '-' || c == '+') && headIsDigit cs then
      some (if c == '-' then -((readDigits cs 0).1 : Int) else ((readDigits cs 0).1 : Int))
    else searchSignedInt cs

/-- parse_lag_policy: `None`/empty input gives the default 0; otherwise the
first embedded signed integer, or 0 when none exists. -/
def parse_lag_policy (policy : Option String) : Int :=
  match policy with
  | none => LAG_POLICY_DEFAULT
  | some s =>
    if s = "" then LAG_POLICY_DEFAULT
    else
      match searchSignedInt s.data with
      | some v => v
      | none => LAG_POLICY_DEFAULT

/-! ## lookback_window_to_days (ticker_factor_beta_loader.py, lines 126-139)

`re.fullmatch(r"(\d+)\s*(d|day|days|mo|m|mon|month|months|y|yr|year|years)", w)`
on the stripped, lowercased input; day units return n, month units 30n,
year units 365n; a failed match returns 730.
-/

/-- Python `str.strip`: drop leading and trailing whitespace. -/
def pyStrip (s : List Char) : List Char :=
  ((s.dropWhile Char.isWhitespace).reverse.dropWhile Char.isWhitespace).reverse

/-- The day-unit alternatives of the lookback regex. -/
def dayUnits : List (List Char) := [['d'], ['d','a','y'], ['d','a','y','s']]

/-- The month-unit alternatives of the lookback regex. -/
def monthUnits : List (List Char) :=
  [['m','o'], ['m'], ['m','o','n'], ['m','o','n','t','h'], ['m','o','n','t','h','s']]

/-- The year-unit alternatives of the lookback regex. -/
def yearUnits : List (List Char) := [['y'], ['y','r'], ['y','e','a','r'], ['y','e','a','r','s']]

/-- All unit alternatives. -/
def allUnits : List (List Char) := dayUnits ++ monthUnits ++ yearUnits

/-- The `(window or "").strip().lower()` normalization. -/
def normalizeWindow (window : Option String) : List Char :=
  (pyStrip (window.getD "").data).map Char.toLower

/-- The digit group of the lookback regex: the maximal digit prefix of the
normalized input. -/
def lbDigits (window : Option String) : List Char :=
  (normalizeWindow window).takeWhile Char.isDigit

/-- The unit group of the lookback regex: what remains of the normalized
input after the digit prefix and the following whitespace. -/
def lbUnit (window : Option String) : List Char :=
  (((normalizeWindow window).dropWhile Char.isDigit).dropWhile Char.isWhitespace)

/-- lookback_window_to_days: parse "number + unit" with optional spaces in
between; day units give n, month units 30n, year units 365n; anything that
does not fully match gives 730. -/
def lookback_window_to_days (window : Option String) : Int :=
  if lbDigits window = [] then 730
  else if lbUnit window ∈ dayUnits then (natOfDigits (lbDigits window) : Int)
  else if lbUnit window ∈ monthUnits then (natOfDigits (lbDigits window) : Int) * 30
  else if lbUnit window ∈ yearUnits then (natOfDigits (lbDigits window) : Int) * 365
  else 730

/-! ## Series model

A daily series is a list of (rata-die date, value) pairs in the order the
frame holds its rows; the security return series is sorted ascending by
date.  A factor column of the wide matrix `fwide` is a (factor_code,
series) pair holding that factor's lag-aligned returns.
-/

/-- A date-indexed series of exact rationals. -/
abbrev SeriesQ := List (Int × ℚ)

/-- A column of the wide factor matrix: (factor_code, aligned series). -/
abbrev FactorCol := String × SeriesQ

/-- Cell of a pivot with aggfunc last: the last value recorded for date
`d`, `none` when the column has no row at `d` (a NaN cell). -/
def cellLast (col : SeriesQ) (d : Int) : Option ℚ :=
  ((col.filter (fun p => p.1 == d)).getLast?).map Prod.snd

/-- The series of the column named `fc` in the wide matrix; a factor that
never produced a column behaves as an all-NaN column. -/
def findCol (F : List FactorCol) (fc : String) : SeriesQ :=
  match F.find? (fun c => c.1 == fc) with
  | some c => c.2
  | none => []

/-- The date index of the wide matrix: the union of all columns' dates. -/
def unionDates (F : List FactorCol) : List Int :=
  (F.flatMap (fun c => c.2.map Prod.fst)).dedup

/-- `df = pd.DataFrame(ret_t).join(fwide, how="inner")`: the security rows
whose date also appears in the wide matrix index (line 690-692). -/
def joinRows (s : SeriesQ) (F : List FactorCol) : SeriesQ :=
  s.filter (fun p => decide (p.1 ∈ unionDates F))

/-- `df[["ret_t", fc]].dropna()`: the joined rows where factor `fc` also
has a value; each row keeps (date, security return, factor value). -/
def pairSample (s : SeriesQ) (F : List FactorCol) (fc : String) :
    List (Int × ℚ × ℚ) :=
  (joinRows s F).filterMap
    (fun p => (cellLast (findCol F fc) p.1).map (fun v => (p.1, p.2, v)))

/-- Per-factor overlap: the number of dates where both the security return
and the factor's aligned value are present (lines 765-768). -/
def overlap (s : SeriesQ) (F : List FactorCol) (fc : String) : Nat :=
  (pairSample s F fc).length

/-- Overlap computed from the security/factor pair alone, with no factor
matrix in sight. -/
def overlapPair (s : SeriesQ) (col : SeriesQ) : Nat :=
  (s.filter (fun p => (cellLast col p.1).isSome)).length

/-- `available_factors = [c for c in factor_codes if c in df.columns]`
(line 695). -/
def available_factors (codes : List String) (F : List FactorCol) : List String :=
  codes.filter (fun c => (F.find? (fun col => col.1 == c)).isSome)

/-- `ok_factors`: the available factors whose overlap reaches MIN_NOBS
(lines 763-770). -/
def ok_factors (s : SeriesQ) (codes : List String) (F : List FactorCol) :
    List String :=
  (available_factors codes F).filter (fun fc => decide (MIN_NOBS ≤ overlap s F fc))

/-- `if len(rows) > WINDOW_DAYS: rows = rows.iloc[-WINDOW_DAYS:]`: keep the
trailing WINDOW_DAYS rows (lines 712-713 and 785-786). -/
def truncateWindow {α : Type} (rows : List α) : List α :=
  if WINDOW_DAYS < rows.length then rows.drop (rows.length - WINDOW_DAYS) else rows

/-- The n_obs of a single-factor regression sample for factor `fc`. -/
def nObsSingle (s : SeriesQ) (F : List FactorCol) (fc : String) : Nat :=
  (truncateWindow (pairSample s F fc)).length

/-! ## NaN-propagating values and ols_multi (lines 514-526)

Float cells that can be NaN are `Option ℚ` (`none` = non-finite);
arithmetic propagates `none` exactly as IEEE NaN propagates.
-/

/-- A float value: `none` models NaN / a non-finite value. -/
abbrev RV := Option ℚ

/-- NaN-propagating addition. -/
def rvAdd : RV → RV → RV
  | some a, some b => some (a + b)
  | _, _ => none

/-- NaN-propagating subtraction. -/
def rvSub : RV → RV → RV
  | some a, some b => some (a - b)
  | _, _ => none

/-- NaN-propagating multiplication. -/
def rvMul : RV → RV → RV
  | some a, some b => some (a * b)
  | _, _ => none

/-- NaN-propagating division by a nonzero finite scalar. -/
def rvDivQ (x : RV) (q : ℚ) : RV := x.map (fun a => a / q)

/-- NaN-propagating sum of a list. -/
def rvSum (xs : List RV) : RV := xs.foldr rvAdd (some 0)

/-- NaN-propagating dot product of a coefficient vector with a row. -/
def rvDot (row : List ℚ) (coef : List RV) : RV :=
  rvSum ((row.zip coef).map (fun p => rvMul (some p.1) p.2))

/-- Sum of a rational list. -/
def sumQ (xs : List ℚ) : ℚ := xs.foldr (· + ·) 0

/-- `np.mean(y)`. -/
def meanQ (y : List ℚ) : ℚ := sumQ y / (y.length : ℚ)

/-- `ss_tot = np.sum((y - np.mean(y)) ** 2)` (line 524). -/
def ssTot (y : List ℚ) : ℚ := sumQ (y.map (fun v => (v - meanQ y) ^ 2))

/-- `ss_res = np.sum((y - y_hat) ** 2)` over NaN-able fitted values. -/
def ssRes (y : List ℚ) (yhat : List RV) : RV :=
  rvSum ((y.zip yhat).map (fun p => rvMul (rvSub (some p.1) p.2) (rvSub (some p.1) p.2)))

/-- `np.isfinite` on a float cell. -/
def np_isfinite (x : RV) : Bool := x.isSome

/-- `float(x) if np.isfinite(x) else None`: the per-field guard applied to
each reported coefficient (lines 745-752, 824-831). -/
def reportVal (x : RV) : Option ℚ := if np_isfinite x then x else none

/-- ols_multi: prepend an intercept column, obtain `coef` from the
least-squares solver (a parameter standing for `np.linalg.lstsq`, which may
also raise), then alpha = coef[0], beta = coef[1:], the fitted values are
`X1 @ coef`, and `r2 = 1 - ss_res/ss_tot if ss_tot > 0 else nan`.  Returns
(beta, alpha, r2). -/
def ols_multi (lstsq : List ℚ → List (List ℚ) → Except String (List RV))
    (y : List ℚ) (X : List (List ℚ)) : Except String (List RV × RV × RV) :=
  match lstsq y (X.map (fun row => (1 : ℚ) :: row)) with
  | .error e => .error e
  | .ok coef =>
    .ok (coef.tail, coef.headD none,
      if 0 < ssTot y then
        rvSub (some 1)
          (rvDivQ (ssRes y ((X.map (fun row => (1 : ℚ) :: row)).map
            (fun row => rvDot row coef))) (ssTot y))
      else none)

/-! ## Per-security processing (main, lines 689-853)

One security's pass over the joined frame: the single-factor loop, the
overlap-based eligible set, and the multi-factor regression, producing the
upsert rows and the per-security report row.
-/

/-- A row upserted into ticker_factor_beta_long (the fields the engine
computes; run-constant provenance fields are omitted). -/
structure BetaRow where
  asof_date : Option Int
  window_days : Nat
  stock_code : String
  factor_code : String
  beta : Option ℚ
  r2 : Option ℚ
  n_obs : Nat
  alpha : Option ℚ
  method : String
deriving DecidableEq, Repr

/-- The status column of the per-security report row. -/
inductive RunStatus
  | OK
  | SKIP
  | FAIL
deriving DecidableEq, Repr

/-- The reason column of the per-security report row for the multi-factor
pass, with the numbers interpolated into the format strings. -/
inductive MultiReason
  | no_factor_overlap (minNobs : Nat)
  | thin (nObs nOk nSkipped : Nat)
  | ols_exception (msg : String)
  | ok_counts (nOk nSkipped : Nat)
deriving DecidableEq, Repr

/-- Accumulated outcome of the single-factor loop (lines 700-760). -/
structure SingleOutcome where
  rows : List BetaRow
  okF : List String
  skippedF : List String
  failedF : List String
  statusMap : List (String × String)
  nObsMap : List (String × Nat)
deriving DecidableEq, Repr

/-- The empty single-factor accumulator. -/
def SingleOutcome.empty : SingleOutcome := ⟨[], [], [], [], [], []⟩

/-- One step of the single-factor loop for factor `fc` (lines 709-760):
drop rows missing for this pair only, truncate to the trailing window,
skip as THIN below MIN_NOBS, otherwise fit and emit a row. -/
def singleStep (lstsq : List ℚ → List (List ℚ) → Except String (List RV))
    (stock : String) (s : SeriesQ) (F : List FactorCol)
    (acc : SingleOutcome) (fc : String) : SingleOutcome :=
  let sample := truncateWindow (pairSample s F fc)
  let n := sample.length
  let acc := { acc with nObsMap := acc.nObsMap ++ [(fc, n)] }
  if n < MIN_NOBS then
    { acc with skippedF := acc.skippedF ++ [fc],
               statusMap := acc.statusMap ++ [(fc, "THIN")] }
  else
    match ols_multi lstsq (sample.map (fun r => r.2.1)) (sample.map (fun r => [r.2.2])) with
    | .error _ =>
      { acc with failedF := acc.failedF ++ [fc],
                 statusMap := acc.statusMap ++ [(fc, "FAIL")] }
    | .ok (beta, alpha, r2) =>
      let row : BetaRow :=
        { asof_date := (sample.map (fun r => r.1)).max?
          window_days := WINDOW_DAYS
          stock_code := stock
          factor_code := fc
          beta := reportVal (beta.headD none)
          r2 := reportVal r2
          n_obs := n
          alpha := reportVal alpha
          method := "OLS_SINGLE" }
      { acc with rows := acc.rows ++ [row],
                 okF := acc.okF ++ [fc],
                 statusMap := acc.statusMap ++ [(fc, "OK")] }

/-- The whole single-factor loop over the available factors. -/
def singlePass (lstsq : List ℚ → List (List ℚ) → Except String (List RV))
    (stock : String) (s : SeriesQ) (codes : List String) (F : List FactorCol) :
    SingleOutcome :=
  (available_factors codes F).foldl (singleStep lstsq stock s F) SingleOutcome.empty

/-- Turn a list of optional cells into `some` list exactly when no cell is
missing (row-wise dropna over several columns). -/
def optionAll {α : Type} : List (Option α) → Option (List α)
  | [] => some []
  | x :: xs => x.bind (fun v => (optionAll xs).map (fun vs => v :: vs))

/-- `df2 = df[["ret_t"] + ok_factors].dropna()` (lines 781-782): the joined
rows where every eligible factor has a value, each carrying the security
return and the eligible factors' values in order. -/
def jointSample (s : SeriesQ) (F : List FactorCol) (okF : List String) :
    List (Int × ℚ × List ℚ) :=
  (joinRows s F).filterMap
    (fun p => (optionAll (okF.map (fun fc => cellLast (findCol F fc) p.1))).map
      (fun vs => (p.1, p.2, vs)))

/-- Outcome of the multi-factor pass for one security. -/
structure MultiOutcome where
  status : RunStatus
  reason : MultiReason
  asof : Option Int
  nObs : Nat
  rows : List BetaRow
deriving DecidableEq, Repr

/-- The multi-factor pass (lines 762-836): build the eligible set, jointly
dropna over it, truncate to the trailing window, and regress only when the
sample reaches MIN_NOBS; below it nothing is emitted and the thin case is
recorded. -/
def multiPass (lstsq : List ℚ → List (List ℚ) → Except String (List RV))
    (stock : String) (s : SeriesQ) (codes : List String) (F : List FactorCol) :
    MultiOutcome :=
  let okF := ok_factors s codes F
  let skippedF := codes.filter (fun fc => decide (fc ∉ okF))
  if okF = [] then
    ⟨.SKIP, .no_factor_overlap MIN_NOBS, none, 0, []⟩
  else
    let df2 := truncateWindow (jointSample s F okF)
    let n := df2.length
    if n < MIN_NOBS then
      ⟨.SKIP, .thin n okF.length skippedF.length, none, n, []⟩
    else
      match ols_multi lstsq (df2.map (fun r => r.2.1)) (df2.map (fun r => r.2.2)) with
      | .error e => ⟨.FAIL, .ols_exception e, none, n, []⟩
      | .ok (beta, alpha, r2) =>
        let asof := (df2.map (fun r => r.1)).max?
        let rows := okF.enum.map (fun ifc =>
          { asof_date := asof
            window_days := WINDOW_DAYS
            stock_code := stock
            factor_code := ifc.2
            beta := reportVal (beta.getD ifc.1 none)
            r2 := reportVal r2
            n_obs := n
            alpha := reportVal alpha
            method := "OLS_MULTI" : BetaRow })
        ⟨.OK, .ok_counts okF.length skippedF.length, asof, n, rows⟩

/-- The per-security report row (lines 838-853). -/
structure SecurityReport where
  status : RunStatus
  reason : MultiReason
  n_obs : Nat
  ok_factors : List String
  skipped_factors : List String
  single_ok_factors : List String
  single_skipped_factors : List String
  single_failed_factors : List String
  single_status_map : List (String × String)
  single_n_obs_map : List (String × Nat)
deriving DecidableEq, Repr

/-- Process one security end to end: single-factor loop, multi-factor
pass, emitted upsert rows (singles first, then multi), and the report row. -/
def processSecurity (lstsq : List ℚ → List (List ℚ) → Except String (List RV))
    (stock : String) (s : SeriesQ) (codes : List String) (F : List FactorCol) :
    List BetaRow × SecurityReport :=
  let sr := singlePass lstsq stock s codes F
  let mr := multiPass lstsq stock s codes F
  (sr.rows ++ mr.rows,
   { status := mr.status
     reason := mr.reason
     n_obs := mr.nObs
     ok_factors := ok_factors s codes F
     skipped_factors := codes.filter (fun fc => decide (fc ∉ ok_factors s codes F))
     single_ok_factors := sr.okF
     single_skipped_factors := sr.skippedF
     single_failed_factors := sr.failedF
     single_status_map := sr.statusMap
     single_n_obs_map := sr.nObsMap })

/-! ## Civil calendar and expand_monthly_to_daily_ret (lines 413-461)

Dates carried by monthly observations are civil (year, month, day)
triples; `pd.DateOffset(months=k)` adds to the month and clamps the day to
the target month's length; the daily calendar is the contiguous rata-die
integer range. -/

/-- A civil calendar date. -/
structure Date where
  year : Int
  month : Int
  day : Int
deriving DecidableEq, Repr

/-- Gregorian leap year. -/
def isLeap (y : Int) : Bool := (y % 4 == 0 && y % 100 != 0) || y % 400 == 0

/-- Number of days of month `m` of year `y`. -/
def daysInMonth (y m : Int) : Int :=
  if m = 2 then (if isLeap y then 29 else 28)
  else if m = 4 ∨ m = 6 ∨ m = 9 ∨ m = 11 then 30
  else 31

/-- `d + pd.DateOffset(months=k)`: shift the month and clamp the day to
the end of the target month (Jan 31 plus one month is Feb 29 in 2024). -/
def addMonths (d : Date) (k : Int) : Date :=
  let t := 12 * d.year + (d.month - 1) + k
  let y := t.fdiv 12
  let m := t.fmod 12 + 1
  ⟨y, m, min d.day (daysInMonth y m)⟩

/-- Rata-die day number of a civil date (days since 1970-01-01). -/
def rataDie (d : Date) : Int :=
  let y := if d.month ≤ 2 then d.year - 1 else d.year
  let era := y.fdiv 400
  let yoe := y - era * 400
  let doy := (153 * (d.month + (if 2 < d.month then -3 else 9)) + 2).fdiv 5 + d.day - 1
  let doe := yoe * 365 + yoe.fdiv 4 - yoe.fdiv 100 + doy
  era * 146097 + doe - 719468

/-- `pd.date_range(start, end, freq="D")` as rata-die days: the contiguous
integers from `a` to `b` inclusive. -/
def intRange (a b : Int) : List Int :=
  (List.range (b - a + 1).toNat).map (fun (i : Nat) => a + (i : Int))

/-- The release-date map: each observation keyed by its release day (the
observation date shifted by the release lag); duplicate keys resolve to
the last-inserted value, as a Python dict comprehension does. -/
def buildRetMap (obs : List (Date × ℚ)) (lagMonths : Int) : List (Int × ℚ) :=
  obs.map (fun o => (rataDie (addMonths o.1 lagMonths), o.2))

/-- Dict lookup with last-write-wins duplicate keys. -/
def dictGet (m : List (Int × ℚ)) (d : Int) : Option ℚ :=
  ((m.filter (fun p => p.1 == d)).getLast?).map Prod.snd

/-- Minimum of the keys of a nonempty map (`min(ret_map.keys())`). -/
def minKeyD (m : List (Int × ℚ)) : Int :=
  match m.map Prod.fst with
  | [] => 0
  | x :: xs => xs.foldl min x

/-- expand_monthly_to_daily_ret: shift each monthly observation to its
release day, build the daily calendar from
`max(start_date or earliest release, earliest release)` to `end_date`,
fill it with zero, and set each release day in range to its observation's
return (lines 413-461). -/
def expand_monthly_to_daily_ret (obs : List (Date × ℚ)) (end_date : Int)
    (start_date : Option Int) (release_lag_months : Int) : List (Int × ℚ) :=
  match obs with
  | [] => []
  | _ :: _ =>
    if end_date <
        max (start_date.getD (minKeyD (buildRetMap obs release_lag_months)))
          (minKeyD (buildRetMap obs release_lag_months)) then []
    else
      (intRange
        (max (start_date.getD (minKeyD (buildRetMap obs release_lag_months)))
          (minKeyD (buildRetMap obs release_lag_months))) end_date).map
        (fun d => (d, (dictGet (buildRetMap obs release_lag_months) d).getD 0))

/-! ## apply_factor_lags (lines 484-508) -/

/-- `pandas.Series.shift(lag)` positionally on the values of a column:
for a nonnegative lag the first `lag` cells become NaN and every value
moves `lag` places later (values shifted past the end are dropped); a
negative lag moves values earlier and pads the tail with NaN. -/
def pdShift (lag : Int) (xs : List ℚ) : List RV :=
  if 0 ≤ lag then
    List.replicate (min lag.toNat xs.length) none
      ++ (xs.take (xs.length - lag.toNat)).map some
  else
    (xs.drop (-lag).toNat).map some
      ++ List.replicate (min (-lag).toNat xs.length) none

/-- Alignment of one factor's date-sorted rows under lag `lag`: attach the
shifted column as `aligned_ret` and drop the rows where it is NaN
(`out.dropna(subset=["aligned_ret"])`, line 507). -/
def alignWithLag (lag : Int) (rows : SeriesQ) : SeriesQ :=
  ((rows.map Prod.fst).zip (pdShift lag (rows.map Prod.snd))).filterMap
    (fun p => p.2.map (fun v => (p.1, v)))

/-- apply_factor_lags for one factor group: parse the group's lag policy
and align its sorted rows. -/
def apply_factor_lags_one (lagPolicy : Option String) (rows : SeriesQ) : SeriesQ :=
  alignWithLag (parse_lag_policy lagPolicy) (rows.mergeSort (fun a b => a.1 ≤ b.1))

/-! ## compute_returns (factor_returns_loader.py, lines 359-373)

A pandas difference `level - level.shift(1)` keeps the index of `level`
and leaves NaN on the first row; the first argument of the rule's
pointwise function is the previous level, the second the current one.
The natural logarithm is transcendental, so it enters the embedding as a
function parameter `lnF`. -/

/-- Pairwise transform against the previous row, NaN on the first row. -/
def diffAux (f : ℚ → ℚ → ℚ) : (Int × ℚ) → List (Int × ℚ) → List (Int × Option ℚ)
  | _, [] => []
  | prev, y :: ys => (y.1, some (f prev.2 y.2)) :: diffAux f y ys

/-- `g(level) - g(level.shift(1))` elementwise over a date-indexed series. -/
def diffSeries (f : ℚ → ℚ → ℚ) : List (Int × ℚ) → List (Int × Option ℚ)
  | [] => []
  | x :: xs => (x.1, none) :: diffAux f x xs

/-- compute_returns: dropna the level series, then apply the declared
rule; `log_return` first drops non-positive levels; an unknown rule raises
ValueError. -/
def compute_returns (lnF : ℚ → ℚ) (ret_type : String) (duration_years : Option ℚ)
    (level0 : List (Int × Option ℚ)) : Except String (List (Int × Option ℚ)) :=
  let level := level0.filterMap (fun p => p.2.map (fun v => (p.1, v)))
  if ret_type = "log_return" then
    .ok (diffSeries (fun p v => lnF v - lnF p) (level.filter (fun p => decide (0 < p.2))))
  else if ret_type = "diff_pp" then
    .ok (diffSeries (fun p v => v - p) level)
  else if ret_type = "duration_return" then
    let dur := duration_years.getD DURATION_US10Y
    .ok (diffSeries (fun p v => -dur * ((v - p) / 100)) level)
  else .error ("Unsupported ret_type: " ++ ret_type)

/-- The number of actual observations of a return series: rows whose value
is not NaN (only those rows survive any later dropna or join). -/
def obsCount (rs : List (Int × Option ℚ)) : Nat :=
  (rs.filterMap (fun p => p.2)).length

/-- Dot product of two rational vectors (truncating to the shorter). -/
def dotQ (row cs : List ℚ) : ℚ := sumQ ((row.zip cs).map (fun p => p.1 * p.2))

/-- The residual sum of squares of the finite coefficient vector `cs`
against design matrix `X1` and target `y`. -/
def ssResQ (y : List ℚ) (X1 : List (List ℚ)) (cs : List ℚ) : ℚ :=
  sumQ ((y.zip (X1.map (fun row => dotQ row cs))).map (fun p => (p.1 - p.2) ^ 2))

/-- Security series for the C3 witness: constant returns on days 0..119. -/
def wSecC3 : SeriesQ := (List.range 120).map (fun i => ((i : Int), (1 : ℚ)))

/-- First witness factor column: present on days 0..59 only. -/
def wColA : SeriesQ := (List.range 60).map (fun i => ((i : Int), (2 : ℚ)))

/-- Second witness factor column: present on days 60..119 only. -/
def wColB : SeriesQ := (List.range 60).map (fun i => ((i : Int) + 60, (3 : ℚ)))

/-- Witness factor matrix: two factors, each with overlap 60 but with an
empty joint intersection. -/
def wFC3 : List FactorCol := [("A", wColA), ("B", wColB)]

/-! ## Lemmas about the integer scanner -/

theorem readDigits_append (ds rest : List Char) (acc : Nat)
    (hds : ∀ c ∈ ds, c.isDigit = true) (hrest : headIsDigit rest = false) :
    readDigits (ds ++ rest) acc = (ds.foldl (fun a c => a * 10 + digitVal c) acc, rest) := by
  induction ds generalizing acc with
  | nil =>
    simp only [List.nil_append, List.foldl_nil]
    cases rest with
    | nil => simp [readDigits]
    | cons c cs =>
      simp only [headIsDigit] at hrest
      simp [readDigits, hrest]
  | cons d ds ih =>
    have hd : d.isDigit = true := hds d (List.mem_cons_self d ds)
    simp only [List.cons_append, readDigits, hd, if_true, List.foldl_cons]
    exact ih _ (fun c hc => hds c (List.mem_cons_of_mem d hc))

theorem searchSignedInt_of_no_digit (cs : List Char)
    (h : ∀ c ∈ cs, c.isDigit = false) : searchSignedInt cs = none := by
  induction cs with
  | nil => rfl
  | cons c cs ih =>
    have hc : c.isDigit = false := h c (List.mem_cons_self c cs)
    have hh : headIsDigit cs = false := by
      cases cs with
      | nil => rfl
      | cons d ds => exact h d (List.mem_cons_of_mem c (List.mem_cons_self d ds))
    simp only [searchSignedInt, hc, hh, Bool.and_false, Bool.false_eq_true, if_false]
    exact ih (fun x hx => h x (List.mem_cons_of_mem c hx))

theorem readDigits_natOfDigits (ds post : List Char)
    (hds : ∀ c ∈ ds, c.isDigit = true) (hpost : headIsDigit post = false) :
    readDigits (ds ++ post) 0 = (natOfDigits ds, post) :=
  readDigits_append ds post 0 hds hpost

theorem searchSignedInt_cons_skip (c : Char) (cs : List Char)
    (hc : c.isDigit = false)
    (hcond : ((c == '-' || c == '+') && headIsDigit cs) = false) :
    searchSignedInt (c :: cs) = searchSignedInt cs := by
  simp only [searchSignedInt, hc, Bool.false_eq_true, if_false, hcond]

theorem searchSignedInt_append (pre sgn ds post : List Char)
    (hpre : ∀ c ∈ pre, c.isDigit = false)
    (hlast : pre.getLast?.all (fun c => !(c == '-' || c == '+')) = true)
    (hsgn : sgn = [] ∨ sgn = ['-'] ∨ sgn = ['+'])
    (hne : ds ≠ []) (hdig : ∀ c ∈ ds, c.isDigit = true)
    (hpost : headIsDigit post = false) :
    searchSignedInt (pre ++ (sgn ++ ds ++ post)) =
      some (if sgn = ['-'] then -(natOfDigits ds : Int) else (natOfDigits ds : Int)) := by
  induction pre with
  | nil =>
    have hrd := readDigits_natOfDigits ds post hdig hpost
    cases ds with
    | nil => exact absurd rfl hne
    | cons d ds' =>
      have hd : d.isDigit = true := hdig d (List.mem_cons_self d ds')
      rcases hsgn with h | h | h
      · subst h
        show searchSignedInt (d :: (ds' ++ post)) = _
        simp only [searchSignedInt, hd, if_true]
        rw [← List.cons_append, hrd]
        rfl
      · subst h
        show searchSignedInt ('-' :: ((d :: ds') ++ post)) = _
        have h1 : ('-' : Char).isDigit = false := by decide
        have h2 : headIsDigit ((d :: ds') ++ post) = true := by
          simpa [headIsDigit] using hd
        simp only [searchSignedInt, h1, Bool.false_eq_true, if_false, h2]
        rw [hrd]
        rfl
      · subst h
        show searchSignedInt ('+' :: ((d :: ds') ++ post)) = _
        have h1 : ('+' : Char).isDigit = false := by decide
        have h2 : headIsDigit ((d :: ds') ++ post) = true := by
          simpa [headIsDigit] using hd
        simp only [searchSignedInt, h1, Bool.false_eq_true, if_false, h2]
        rw [hrd]
        rfl
  | cons c pre' ih =>
    have hc : c.isDigit = false := hpre c (List.mem_cons_self c pre')
    have hpre' : ∀ x ∈ pre', x.isDigit = false :=
      fun x hx => hpre x (List.mem_cons_of_mem c hx)
    have hlast' : pre'.getLast?.all (fun x => !(x == '-' || x == '+')) = true := by
      cases pre' with
      | nil => rfl
      | cons a b => rwa [List.getLast?_cons_cons] at hlast
    have hcond : ((c == '-' || c == '+') && headIsDigit (pre' ++ (sgn ++ ds ++ post))) = false := by
      cases pre' with
      | nil =>
        have hcl : (c == '-' || c == '+') = false := by
          have : (!(c == '-' || c == '+')) = true := by simpa [Option.all] using hlast
          simpa using this
        rw [hcl, Bool.false_and]
      | cons c' pre'' =>
        have hc' : c'.isDigit = false := hpre' c' (List.mem_cons_self c' pre'')
        have hh : headIsDigit ((c' :: pre'') ++ (sgn ++ ds ++ post)) = false := by
          simpa [headIsDigit] using hc'
        rw [hh, Bool.and_false]
    rw [List.cons_append, searchSignedInt_cons_skip c _ hc hcond]
    exact ih hpre' hlast'

/-- Claim C8: for every input text, the parsed lag is the first embedded
signed integer found in the text (leftmost sign-and-digit-run match), and
it is the default 0 whenever the field is absent, empty, or contains no
embedded integer; the parser is a total function, so it never raises. -/
theorem parse_lag_policy_first_int :
    parse_lag_policy none = 0 ∧
    parse_lag_policy (some "") = 0 ∧
    (∀ s : String, (∀ c ∈ s.data, c.isDigit = false) → parse_lag_policy (some s) = 0) ∧
    (∀ pre sgn ds post : List Char,
      (∀ c ∈ pre, c.isDigit = false) →
      pre.getLast?.all (fun c => !(c == '-' || c == '+')) = true →
      (sgn = [] ∨ sgn = ['-'] ∨ sgn = ['+']) →
      ds ≠ [] → (∀ c ∈ ds, c.isDigit = true) →
      headIsDigit post = false →
      parse_lag_policy (some (String.mk (pre ++ (sgn ++ ds ++ post)))) =
        (if sgn = ['-'] then -(natOfDigits ds : Int) else (natOfDigits ds : Int))) := by
  refine ⟨rfl, rfl, ?_, ?_⟩
  · intro s h
    by_cases hs : s = ""
    · subst hs; rfl
    · simp only [parse_lag_policy, hs, if_false]
      rw [searchSignedInt_of_no_digit s.data h]
      rfl
  · intro pre sgn ds post hpre hlast hsgn hne hdig hpost
    have hmk : (String.mk (pre ++ (sgn ++ ds ++ post))).data = pre ++ (sgn ++ ds ++ post) := rfl
    have hnonempty : String.mk (pre ++ (sgn ++ ds ++ post)) ≠ "" := by
      intro h
      have : pre ++ (sgn ++ ds ++ post) = [] := by
        have := congrArg String.data h
        simpa using this
      rcases List.append_eq_nil.mp this with ⟨-, h2⟩
      rcases List.append_eq_nil.mp h2 with ⟨h3, -⟩
      rcases List.append_eq_nil.mp h3 with ⟨-, h4⟩
      exact hne h4
    simp only [parse_lag_policy, hnonempty, if_false, hmk]
    rw [searchSignedInt_append pre sgn ds post hpre hlast hsgn hne hdig hpost]

/-- Witness for C8 on the concrete policy text "lag: -2 days". -/
theorem parse_lag_policy_first_int_witness :
    parse_lag_policy (some (String.mk ['l','a','g',':',' ','-','2',' ','d','a','y','s'])) = -2 := by
  have h := parse_lag_policy_first_int.2.2.2 ['l','a','g',':',' '] ['-'] ['2'] [' ','d','a','y','s']
    (by decide) (by decide) (Or.inr (Or.inl rfl)) (by decide) (by decide) (by decide)
  simpa [natOfDigits, digitVal] using h

/-! ## Lemmas for the lookback-window parser -/

theorem takeWhile_append_all (p : Char → Bool) (xs ys : List Char)
    (h1 : ∀ c ∈ xs, p c = true)
    (h2 : ∀ c, ys.head? = some c → p c = false) :
    (xs ++ ys).takeWhile p = xs ∧ (xs ++ ys).dropWhile p = ys := by
  induction xs with
  | nil =>
    simp only [List.nil_append]
    cases ys with
    | nil => exact ⟨rfl, rfl⟩
    | cons y ys' =>
      have hy : p y = false := h2 y rfl
      simp [List.takeWhile_cons, List.dropWhile_cons, hy]
  | cons x xs ih =>
    have hx : p x = true := h1 x (List.mem_cons_self x xs)
    have := ih (fun c hc => h1 c (List.mem_cons_of_mem x hc))
    simp only [List.cons_append, List.takeWhile_cons, List.dropWhile_cons, hx, if_true]
    exact ⟨by rw [this.1], by rw [this.2]⟩

theorem ws_not_digit (c : Char) (h : c.isWhitespace = true) : c.isDigit = false := by
  have : ((c = ' ' ∨ c = '\t') ∨ c = '\r') ∨ c = '\n' := by
    simpa [Char.isWhitespace] using h
  rcases this with ((h | h) | h) | h <;> subst h <;> decide

theorem unit_head_facts (u : List Char) (hu : u ∈ allUnits) :
    ∀ c, u.head? = some c → (c.isDigit = false ∧ c.isWhitespace = false) := by
  simp only [allUnits, dayUnits, monthUnits, yearUnits, List.append_assoc, List.cons_append,
    List.nil_append, List.mem_cons, List.not_mem_nil, or_false] at hu
  rcases hu with h | h | h | h | h | h | h | h | h | h | h | h <;> subst h <;>
    intro c hc <;> simp only [List.head?_cons, Option.some.injEq] at hc <;> subst hc <;>
    exact ⟨by decide, by decide⟩

/-- Claim C10: lookback-window parsing is total with a fixed fallback:
when the normalized input decomposes into digits, whitespace, and a unit,
the result is n for a day unit, 30n for a month unit, 365n for a year
unit; any input with no such decomposition (including the absent and the
empty input) gives exactly 730, and the parser is a total function, so it
never raises. -/
theorem lookback_window_total :
    lookback_window_to_days none = 730 ∧
    lookback_window_to_days (some "") = 730 ∧
    (∀ (w : Option String) (ds sp u : List Char),
      normalizeWindow w = ds ++ (sp ++ u) →
      ds ≠ [] → (∀ c ∈ ds, c.isDigit = true) →
      (∀ c ∈ sp, c.isWhitespace = true) →
      u ∈ allUnits →
      lookback_window_to_days w =
        (if u ∈ dayUnits then (natOfDigits ds : Int)
         else if u ∈ monthUnits then (natOfDigits ds : Int) * 30
         else (natOfDigits ds : Int) * 365)) ∧
    (∀ w : Option String,
      (∀ ds sp u : List Char, normalizeWindow w = ds ++ (sp ++ u) →
        ds ≠ [] → (∀ c ∈ ds, c.isDigit = true) →
        (∀ c ∈ sp, c.isWhitespace = true) → u ∈ allUnits → False) →
      lookback_window_to_days w = 730) := by
  refine ⟨rfl, rfl, ?_, ?_⟩
  · intro w ds sp u hw hne hds hsp hu
    have hunit := unit_head_facts u hu
    have hmid : ∀ c, (sp ++ u).head? = some c → c.isDigit = false := by
      intro c hc
      cases sp with
      | nil => exact (hunit c (by simpa using hc)).1
      | cons a b =>
        have ha : a.isWhitespace = true := hsp a (List.mem_cons_self a b)
        have hca : a = c := by simpa using hc
        subst hca
        exact ws_not_digit a ha
    have h1 := takeWhile_append_all Char.isDigit ds (sp ++ u) hds hmid
    have h2 := takeWhile_append_all Char.isWhitespace sp u hsp
      (fun c hc => (hunit c hc).2)
    have hdig : lbDigits w = ds := by
      unfold lbDigits
      rw [hw]; exact h1.1
    have hun : lbUnit w = u := by
      unfold lbUnit
      rw [hw, h1.2]; exact h2.2
    simp only [lookback_window_to_days]
    rw [hdig, hun, if_neg hne]
    by_cases hd : u ∈ dayUnits
    · rw [if_pos hd, if_pos hd]
    · rw [if_neg hd, if_neg hd]
      by_cases hm : u ∈ monthUnits
      · rw [if_pos hm, if_pos hm]
      · rw [if_neg hm, if_neg hm]
        have hy : u ∈ yearUnits := by
          rcases List.mem_append.mp hu with h | h
          · rcases List.mem_append.mp h with h | h
            · exact absurd h hd
            · exact absurd h hm
          · exact h
        rw [if_pos hy]
  · intro w hfail
    by_cases hne : lbDigits w = []
    · simp only [lookback_window_to_days]
      rw [if_pos hne]
    · have hdecomp : normalizeWindow w = lbDigits w ++
          (((normalizeWindow w).dropWhile Char.isDigit).takeWhile Char.isWhitespace ++
            lbUnit w) := by
        unfold lbDigits lbUnit
        rw [List.takeWhile_append_dropWhile, List.takeWhile_append_dropWhile]
      have hnu : lbUnit w ∉ allUnits := fun hmem =>
        hfail _ _ _ hdecomp hne
          (fun c hc => List.mem_takeWhile_imp hc)
          (fun c hc => List.mem_takeWhile_imp hc) hmem
      have hd : lbUnit w ∉ dayUnits := fun h =>
        hnu (List.mem_append.mpr (Or.inl (List.mem_append.mpr (Or.inl h))))
      have hm : lbUnit w ∉ monthUnits := fun h =>
        hnu (List.mem_append.mpr (Or.inl (List.mem_append.mpr (Or.inr h))))
      have hy : lbUnit w ∉ yearUnits := fun h =>
        hnu (List.mem_append.mpr (Or.inr h))
      simp only [lookback_window_to_days]
      rw [if_neg hne, if_neg hd, if_neg hm, if_neg hy]

/-- Witness for C10 on the concrete input " 3Y ". -/
theorem lookback_window_total_witness :
    lookback_window_to_days (some (String.mk [' ', '3', 'Y', ' '])) = 1095 := by
  have h := lookback_window_total.2.2.1 (some (String.mk [' ', '3', 'Y', ' ']))
    ['3'] [] ['y'] (by decide) (by decide) (by decide) (by decide) (by decide)
  rw [h]
  decide

/-! ## Lemmas about overlap and eligibility -/

theorem truncateWindow_length {α : Type} (l : List α) :
    (truncateWindow l).length = min l.length WINDOW_DAYS := by
  unfold truncateWindow
  split
  · rw [List.length_drop]
    omega
  · omega

theorem find?_append_left {α : Type} (F G : List α) (p : α → Bool)
    (h : (F.find? p).isSome = true) : (F ++ G).find? p = F.find? p := by
  induction F with
  | nil => simp at h
  | cons a F ih =>
    by_cases ha : p a
    · rw [List.cons_append, List.find?_cons_of_pos _ ha, List.find?_cons_of_pos _ ha]
    · rw [List.cons_append, List.find?_cons_of_neg _ ha, List.find?_cons_of_neg _ ha]
      rw [List.find?_cons_of_neg _ ha] at h
      exact ih h

theorem length_filterMap_map_eq {α β γ : Type} (l : List α) (h : α → Option β)
    (g : α → β → γ) :
    (l.filterMap (fun a => (h a).map (g a))).length =
      (l.filter (fun a => (h a).isSome)).length := by
  induction l with
  | nil => rfl
  | cons a l ih =>
    cases hv : h a with
    | none => simp [List.filterMap_cons, List.filter_cons, hv, ih]
    | some b => simp [List.filterMap_cons, List.filter_cons, hv, ih]

theorem cellLast_isSome_mem_union (F : List FactorCol) (c : FactorCol)
    (hc : c ∈ F) (d : Int) (h : (cellLast c.2 d).isSome = true) :
    d ∈ unionDates F := by
  unfold cellLast at h
  obtain ⟨p, hp⟩ : ∃ p, (c.2.filter (fun q => q.1 == d)).getLast? = some p := by
    cases hg : (c.2.filter (fun q => q.1 == d)).getLast? with
    | none => rw [hg] at h; simp at h
    | some p => exact ⟨p, rfl⟩
  have hpmem : p ∈ c.2.filter (fun q => q.1 == d) := by
    obtain ⟨hne, hx⟩ := List.mem_getLast?_eq_getLast
      (show p ∈ (c.2.filter (fun q => q.1 == d)).getLast? from hp)
    rw [hx]
    exact List.getLast_mem hne
  obtain ⟨hp2, hpd⟩ := List.mem_filter.mp hpmem
  have hd : p.1 = d := by simpa using hpd
  unfold unionDates
  rw [List.mem_dedup]
  exact List.mem_flatMap.mpr ⟨c, hc, List.mem_map.mpr ⟨p, hp2, hd⟩⟩

theorem overlap_eq_overlapPair (s : SeriesQ) (F : List FactorCol) (fc : String)
    (c : FactorCol) (hfind : F.find? (fun col => col.1 == fc) = some c) :
    overlap s F fc = overlapPair s (findCol F fc) := by
  have hc : c ∈ F := List.mem_of_find?_eq_some hfind
  have hcol : findCol F fc = c.2 := by unfold findCol; rw [hfind]
  unfold overlap pairSample overlapPair joinRows
  rw [hcol, length_filterMap_map_eq, List.filter_filter]
  congr 1
  apply List.filter_congr
  intro p hp
  cases hsome : (cellLast c.2 p.1).isSome with
  | true =>
    have := cellLast_isSome_mem_union F c hc p.1 hsome
    simp [this]
  | false => simp

/-- Claim C2: a candidate factor is in the eligible (ok) set exactly when
its overlap with the security reaches MIN_NOBS; overlap MIN_NOBS - 1
excludes it and overlap MIN_NOBS includes it. -/
theorem eligibility_threshold_boundary :
    ∀ (s : SeriesQ) (codes : List String) (F : List FactorCol) (fc : String),
    fc ∈ available_factors codes F →
    ((fc ∈ ok_factors s codes F ↔ MIN_NOBS ≤ overlap s F fc) ∧
     (overlap s F fc = MIN_NOBS - 1 → fc ∉ ok_factors s codes F) ∧
     (overlap s F fc = MIN_NOBS → fc ∈ ok_factors s codes F)) := by
  intro s codes F fc hav
  have key : fc ∈ ok_factors s codes F ↔ MIN_NOBS ≤ overlap s F fc := by
    unfold ok_factors
    rw [List.mem_filter]
    simp [hav]
  refine ⟨key, ?_, ?_⟩
  · intro h59 hmem
    have h := key.mp hmem
    have hM : MIN_NOBS = 60 := rfl
    omega
  · intro h60
    exact key.mpr (le_of_eq h60.symm)

/-- Witness for C2: a factor whose overlap is exactly MIN_NOBS = 60 is in
the eligible set. -/
theorem eligibility_threshold_boundary_witness :
    "A" ∈ ok_factors ((List.range 60).map (fun i => ((i : Int), (1 : ℚ))))
      ["A"] [("A", (List.range 60).map (fun i => ((i : Int), (2 : ℚ))))] := by
  exact (eligibility_threshold_boundary
    ((List.range 60).map (fun i => ((i : Int), (1 : ℚ))))
    ["A"] [("A", (List.range 60).map (fun i => ((i : Int), (2 : ℚ))))] "A"
    (by decide)).2.2 (by decide)

/-- Claim C1: appending one more candidate factor (in particular one whose
pairwise overlap with the security is below MIN_NOBS) changes neither any
other factor's overlap, nor its single-factor sample size, nor its
membership in the eligible set; moreover the overlap equals the quantity
computed from the security/factor pair alone. -/
theorem overlap_monotone_add_factor :
    ∀ (s : SeriesQ) (codes : List String) (F : List FactorCol) (g : FactorCol)
      (fc : String),
    fc ∈ available_factors codes F →
    overlapPair s g.2 < MIN_NOBS →
    (overlap s (F ++ [g]) fc = overlap s F fc ∧
     nObsSingle s (F ++ [g]) fc = nObsSingle s F fc ∧
     (fc ∈ ok_factors s (codes ++ [g.1]) (F ++ [g]) ↔ fc ∈ ok_factors s codes F) ∧
     overlap s F fc = overlapPair s (findCol F fc)) := by
  intro s codes F g fc hav hlow
  have hmemcodes : fc ∈ codes := (List.mem_filter.mp hav).1
  have hsome : (F.find? (fun col => col.1 == fc)).isSome = true :=
    (List.mem_filter.mp hav).2
  obtain ⟨c, hc⟩ := Option.isSome_iff_exists.mp hsome
  have hbig : (F ++ [g]).find? (fun col => col.1 == fc) = some c := by
    rw [find?_append_left _ _ _ hsome, hc]
  have e1 := overlap_eq_overlapPair s (F ++ [g]) fc c hbig
  have e2 := overlap_eq_overlapPair s F fc c hc
  have ecol : findCol (F ++ [g]) fc = findCol F fc := by
    unfold findCol
    rw [hbig, hc]
  have h1 : overlap s (F ++ [g]) fc = overlap s F fc := by
    rw [e1, ecol, ← e2]
  refine ⟨h1, ?_, ?_, e2⟩
  · unfold nObsSingle
    rw [truncateWindow_length, truncateWindow_length]
    unfold overlap at h1
    rw [h1]
  · have havbig : fc ∈ available_factors (codes ++ [g.1]) (F ++ [g]) :=
      List.mem_filter.mpr ⟨List.mem_append.mpr (Or.inl hmemcodes), by rw [hbig]; rfl⟩
    unfold ok_factors
    rw [List.mem_filter, List.mem_filter]
    simp [havbig, hav, h1]

/-- Witness for C1 on concrete series: a new mostly-empty factor leaves
another factor's overlap and eligibility status untouched. -/
theorem overlap_monotone_add_factor_witness :
    overlap [((0 : Int), (1 : ℚ)), ((1 : Int), (2 : ℚ))]
        ([("A", [((0 : Int), (3 : ℚ))])] ++ [("G", [((5 : Int), (7 : ℚ))])]) "A" =
      overlap [((0 : Int), (1 : ℚ)), ((1 : Int), (2 : ℚ))]
        [("A", [((0 : Int), (3 : ℚ))])] "A" := by
  exact (overlap_monotone_add_factor
    [((0 : Int), (1 : ℚ)), ((1 : Int), (2 : ℚ))] ["A"]
    [("A", [((0 : Int), (3 : ℚ))])] ("G", [((5 : Int), (7 : ℚ))]) "A"
    (by decide) (by decide)).1

/-! ## The degenerate multi-factor pass -/

/-- Claim C3: when the joint sample over the eligible factors, truncated
to the trailing window, has fewer than MIN_NOBS rows, the multi-factor
pass emits no rows, the security's report row records the degenerate case
(status SKIP with the thin reason and its sample size), and the
single-factor results are emitted unchanged; the same preservation holds
when the eligible set is empty. -/
theorem multi_thin_preserves_single :
    ∀ (lstsq : List ℚ → List (List ℚ) → Except String (List RV)) (stock : String)
      (s : SeriesQ) (codes : List String) (F : List FactorCol),
    ((ok_factors s codes F ≠ [] →
      (truncateWindow (jointSample s F (ok_factors s codes F))).length < MIN_NOBS →
      ((multiPass lstsq stock s codes F).rows = [] ∧
       (processSecurity lstsq stock s codes F).1 =
         (singlePass lstsq stock s codes F).rows ∧
       (processSecurity lstsq stock s codes F).2.status = RunStatus.SKIP ∧
       (processSecurity lstsq stock s codes F).2.reason =
         MultiReason.thin
           (truncateWindow (jointSample s F (ok_factors s codes F))).length
           (ok_factors s codes F).length
           (codes.filter (fun fc => decide (fc ∉ ok_factors s codes F))).length ∧
       (processSecurity lstsq stock s codes F).2.n_obs =
         (truncateWindow (jointSample s F (ok_factors s codes F))).length ∧
       (processSecurity lstsq stock s codes F).2.single_status_map =
         (singlePass lstsq stock s codes F).statusMap)) ∧
     (ok_factors s codes F = [] →
      ((multiPass lstsq stock s codes F).rows = [] ∧
       (processSecurity lstsq stock s codes F).1 =
         (singlePass lstsq stock s codes F).rows ∧
       (processSecurity lstsq stock s codes F).2.status = RunStatus.SKIP ∧
       (processSecurity lstsq stock s codes F).2.reason =
         MultiReason.no_factor_overlap MIN_NOBS))) := by
  intro lstsq stock s codes F
  constructor
  · intro hne hthin
    have hm : multiPass lstsq stock s codes F =
        ⟨RunStatus.SKIP,
         MultiReason.thin
           (truncateWindow (jointSample s F (ok_factors s codes F))).length
           (ok_factors s codes F).length
           (codes.filter (fun fc => decide (fc ∉ ok_factors s codes F))).length,
         none,
         (truncateWindow (jointSample s F (ok_factors s codes F))).length, []⟩ := by
      simp only [multiPass]
      rw [if_neg hne, if_pos hthin]
    refine ⟨by rw [hm], ?_, ?_, ?_, ?_, ?_⟩ <;>
      simp only [processSecurity, hm, List.append_nil]
  · intro hnil
    have hm : multiPass lstsq stock s codes F =
        ⟨RunStatus.SKIP, MultiReason.no_factor_overlap MIN_NOBS, none, 0, []⟩ := by
      simp only [multiPass]
      rw [if_pos hnil]
    refine ⟨by rw [hm], ?_, ?_, ?_⟩ <;>
      simp only [processSecurity, hm, List.append_nil]

set_option maxRecDepth 100000 in
/-- Witness for C3: both factors are eligible yet the joint sample is
empty, so the multi pass emits nothing and the single-pass rows survive. -/
theorem multi_thin_preserves_single_witness :
    (processSecurity (fun _ _ => Except.error "singular") "S" wSecC3 ["A", "B"] wFC3).1 =
      (singlePass (fun _ _ => Except.error "singular") "S" wSecC3 ["A", "B"] wFC3).rows ∧
    (processSecurity (fun _ _ => Except.error "singular") "S" wSecC3 ["A", "B"] wFC3).2.status =
      RunStatus.SKIP := by
  have h := (multi_thin_preserves_single (fun _ _ => Except.error "singular") "S"
    wSecC3 ["A", "B"] wFC3).1 (by decide) (by decide)
  exact ⟨h.2.1, h.2.2.1⟩

/-! ## The R-squared guard -/

theorem rvSum_map_some (l : List ℚ) : rvSum (l.map some) = some (sumQ l) := by
  induction l with
  | nil => rfl
  | cons a l ih =>
    show rvAdd (some a) (rvSum (l.map some)) = some (a + sumQ l)
    rw [ih]
    rfl

theorem rvDot_some (row cs : List ℚ) : rvDot row (cs.map some) = some (dotQ row cs) := by
  unfold rvDot dotQ
  rw [List.zip_map_right, List.map_map]
  have hfun : ((fun p : ℚ × RV => rvMul (some p.1) p.2) ∘
      Prod.map (@id ℚ) (some : ℚ → RV)) = (some ∘ fun p : ℚ × ℚ => p.1 * p.2) := by
    funext p
    cases p
    rfl
  rw [hfun, ← List.map_map]
  exact rvSum_map_some _

theorem ssRes_some (y ys : List ℚ) :
    ssRes y (ys.map some) = some (sumQ ((y.zip ys).map (fun p => (p.1 - p.2) ^ 2))) := by
  unfold ssRes
  rw [List.zip_map_right, List.map_map]
  have hfun : ((fun p : ℚ × RV => rvMul (rvSub (some p.1) p.2) (rvSub (some p.1) p.2)) ∘
      Prod.map (@id ℚ) (some : ℚ → RV)) =
      (some ∘ fun p : ℚ × ℚ => (p.1 - p.2) ^ 2) := by
    funext p
    cases p with
    | mk a b =>
      show some ((a - b) * (a - b)) = some ((a - b) ^ 2)
      rw [pow_two]
  rw [hfun, ← List.map_map]
  exact rvSum_map_some _

theorem yhat_some (X1 : List (List ℚ)) (cs : List ℚ) :
    X1.map (fun row => rvDot row (cs.map some)) =
      (X1.map (fun row => dotQ row cs)).map some := by
  rw [List.map_map]
  apply List.map_congr_left
  intro row _
  exact rvDot_some row cs

theorem sumQ_nonneg (l : List ℚ) (h : ∀ x ∈ l, 0 ≤ x) : 0 ≤ sumQ l := by
  induction l with
  | nil => simp [sumQ]
  | cons a l ih =>
    have ha : 0 ≤ a := h a (List.mem_cons_self a l)
    have hl : 0 ≤ sumQ l := ih (fun x hx => h x (List.mem_cons_of_mem a hx))
    show 0 ≤ a + sumQ l
    linarith

theorem ssTot_nonneg (y : List ℚ) : 0 ≤ ssTot y := by
  apply sumQ_nonneg
  intro x hx
  obtain ⟨v, -, hv⟩ := List.mem_map.mp hx
  rw [← hv]
  positivity

/-- Claim C7: when the solver returns a finite coefficient vector, R² is
`1 - ss_res/ss_tot` exactly when ss_tot is nonzero, and is NaN (not zero)
when ss_tot is zero, so the guarded division never runs on a zero
denominator; and the per-field finiteness check surfaces a non-finite
value as null instead of a default. -/
theorem r2_guard_null_reporting :
    ∀ (lstsq : List ℚ → List (List ℚ) → Except String (List RV))
      (y : List ℚ) (X : List (List ℚ)) (cs : List ℚ),
    lstsq y (X.map (fun row => (1 : ℚ) :: row)) = .ok (cs.map some) →
    (ols_multi lstsq y X = .ok
       (cs.tail.map some, (cs.map some).headD none,
        if 0 < ssTot y
        then some (1 - ssResQ y (X.map (fun row => (1 : ℚ) :: row)) cs / ssTot y)
        else none) ∧
     (ssTot y = 0 →
       (if 0 < ssTot y
        then some (1 - ssResQ y (X.map (fun row => (1 : ℚ) :: row)) cs / ssTot y)
        else (none : RV)) = none) ∧
     (ssTot y ≠ 0 → 0 < ssTot y ∧
       (if 0 < ssTot y
        then some (1 - ssResQ y (X.map (fun row => (1 : ℚ) :: row)) cs / ssTot y)
        else (none : RV)) =
         some (1 - ssResQ y (X.map (fun row => (1 : ℚ) :: row)) cs / ssTot y)) ∧
     reportVal none = none ∧ (∀ q : ℚ, reportVal (some q) = some q)) := by
  intro lstsq y X cs h
  refine ⟨?_, ?_, ?_, rfl, fun q => rfl⟩
  · unfold ols_multi
    rw [h]
    show Except.ok ((cs.map some).tail, (cs.map some).headD none,
        if 0 < ssTot y then
          rvSub (some 1)
            (rvDivQ (ssRes y ((X.map (fun row => (1 : ℚ) :: row)).map
              (fun row => rvDot row (cs.map some)))) (ssTot y))
        else none) = _
    have htail : (cs.map some).tail = cs.tail.map some := by
      cases cs <;> rfl
    rw [yhat_some, ssRes_some, htail]
    by_cases hpos : 0 < ssTot y
    · rw [if_pos hpos, if_pos hpos]
      rfl
    · rw [if_neg hpos, if_neg hpos]
  · intro h0
    rw [h0]
    norm_num
  · intro hne
    have hpos : 0 < ssTot y := lt_of_le_of_ne (ssTot_nonneg y) (Ne.symm hne)
    exact ⟨hpos, if_pos hpos⟩

/-- Witness for C7: a perfectly fitting solver output on a non-constant
target yields beta 2, alpha 0 and R-squared 1. -/
theorem r2_guard_null_reporting_witness :
    ols_multi (fun _ _ => Except.ok [some 0, some 2]) [(0 : ℚ), 2] [[0], [1]] =
      Except.ok ([some (2 : ℚ)], some (0 : ℚ), some (1 : ℚ)) := by
  have h := (r2_guard_null_reporting (fun _ _ => Except.ok [some 0, some 2])
    [(0 : ℚ), 2] [[0], [1]] [0, 2] rfl).1
  rw [h]
  norm_num [ssResQ, ssTot, sumQ, meanQ, dotQ]

/-! ## Lag alignment semantics -/

theorem pdShift_nat (k : Nat) (vals : List ℚ) :
    pdShift (k : Int) vals =
      List.replicate (min k vals.length) none ++ (vals.take (vals.length - k)).map some := by
  unfold pdShift
  rw [if_pos (Int.natCast_nonneg k)]
  norm_num

theorem pdShift_length (k : Nat) (vals : List ℚ) :
    (pdShift (k : Int) vals).length = vals.length := by
  rw [pdShift_nat]
  simp only [List.length_append, List.length_replicate, List.length_map, List.length_take]
  omega

theorem pdShift_getElem (k : Nat) (vals : List ℚ) (t : Nat) (ht : t < vals.length) :
    (pdShift (k : Int) vals)[t]? =
      some (if t < k then (none : RV) else vals[t - k]?) := by
  rw [pdShift_nat]
  by_cases h1 : t < min k vals.length
  · rw [List.getElem?_append_left (by simpa using h1)]
    rw [List.getElem?_replicate, if_pos h1, if_pos (by omega)]
  · rw [List.getElem?_append_right (by simp only [List.length_replicate]; omega)]
    rw [List.length_replicate, List.getElem?_map]
    have hmin : min k vals.length = k := by omega
    rw [hmin, List.getElem?_take_of_lt (by omega), if_neg (by omega)]
    have hv : vals[t - k]? = some vals[t - k] := List.getElem?_eq_getElem (by omega)
    rw [hv]
    rfl

theorem mem_zip_filterMap_dates (ds : List Int) (sh : List RV) (d : Int)
    (h : d ∈ ((ds.zip sh).filterMap
      (fun p => p.2.map (fun v => (p.1, v)))).map Prod.fst) :
    ∃ j, ∃ hj : j < ds.length, ds.get ⟨j, hj⟩ = d ∧
      ∃ hj2 : j < sh.length, (sh.get ⟨j, hj2⟩).isSome = true := by
  induction ds generalizing sh with
  | nil => simp [List.zip_nil_left] at h
  | cons d0 ds' ih =>
    cases sh with
    | nil => simp [List.zip_nil_right] at h
    | cons s0 sh' =>
      cases hs : s0 with
      | none =>
        rw [List.zip_cons_cons, List.filterMap_cons] at h
        rw [hs] at h
        simp only [Option.map_none] at h
        obtain ⟨j, hj, hjd, hj2, hjs⟩ := ih sh' h
        exact ⟨j + 1, by simpa using Nat.succ_lt_succ hj, by simpa using hjd,
          by simpa using Nat.succ_lt_succ hj2, by simpa using hjs⟩
      | some v =>
        rw [List.zip_cons_cons, List.filterMap_cons] at h
        rw [hs] at h
        simp only [Option.map_some, List.map_cons, List.mem_cons] at h
        cases h with
        | head => exact ⟨0, by simp, rfl, by simp, rfl⟩
        | tail _ h =>
          obtain ⟨j, hj, hjd, hj2, hjs⟩ := ih sh' h
          exact ⟨j + 1, by simpa using Nat.succ_lt_succ hj, by simpa using hjd,
            by simpa using Nat.succ_lt_succ hj2, by simpa using hjs⟩

/-- Claim C6: for every lag k at least 1 applied positionally to a factor
series, the aligned column has the series length, holds NaN on the first
k positions and the raw value from k places earlier elsewhere (lag 1 turns
the values into NaN followed by all but the last raw value); after the
NaN rows are dropped, the dates of the first k positions carry no aligned
value in any downstream join. -/
theorem lag_alignment_semantics :
    ∀ (k : Nat) (vals : List ℚ) (rows : SeriesQ), 1 ≤ k →
    ((pdShift (k : Int) vals).length = vals.length ∧
     (∀ t, t < vals.length →
       (pdShift (k : Int) vals)[t]? =
         some (if t < k then (none : RV) else vals[t - k]?)) ∧
     (∀ (r : ℚ) (rs : List ℚ),
       pdShift (1 : Int) (r :: rs) = none :: ((r :: rs).dropLast.map some)) ∧
     ((rows.map Prod.fst).Nodup →
       ∀ t, ∀ ht : t < rows.length, t < k →
         (rows.get ⟨t, ht⟩).1 ∉ (alignWithLag (k : Int) rows).map Prod.fst)) := by
  intro k vals rows hk
  refine ⟨pdShift_length k vals, fun t ht => pdShift_getElem k vals t ht, ?_, ?_⟩
  · intro r rs
    have h1 : ((1 : Nat) : Int) = (1 : Int) := rfl
    rw [← h1, pdShift_nat]
    have hmin : min 1 (r :: rs).length = 1 := by simp
    rw [hmin, List.dropLast_eq_take]
    rfl
  · intro hnd t ht htk hmem
    obtain ⟨j, hj, hjd, hj2, hjs⟩ :=
      mem_zip_filterMap_dates (rows.map Prod.fst)
        (pdShift (k : Int) (rows.map Prod.snd)) _ hmem
    have hjr : j < rows.length := by simpa using hj
    have hjk : ¬ j < k := by
      intro hjk
      have hget := pdShift_getElem k (rows.map Prod.snd) j (by simpa using hjr)
      rw [if_pos hjk] at hget
      have hgv : (pdShift (k : Int) (rows.map Prod.snd))[j]? =
          some ((pdShift (k : Int) (rows.map Prod.snd)).get ⟨j, hj2⟩) := by
        rw [List.getElem?_eq_getElem hj2]
        rfl
      rw [hgv] at hget
      have := Option.some.inj hget
      rw [this] at hjs
      simp at hjs
    have heq : (rows.map Prod.fst).get ⟨t, by simpa using ht⟩ =
        (rows.map Prod.fst).get ⟨j, hj⟩ := by
      have h1 : (rows.map Prod.fst).get ⟨t, by simpa using ht⟩ = (rows.get ⟨t, ht⟩).1 := by
        simp
      rw [h1, ← hjd]
    have hinj := (List.Nodup.get_inj_iff hnd).mp heq
    have : t = j := by simpa using hinj
    omega

/-- Witness for C6: lag 1 on a three-value series, and the first date
absent from the aligned join input. -/
theorem lag_alignment_semantics_witness :
    pdShift (1 : Int) [(1 : ℚ), 2, 3] = [none, some 1, some 2] ∧
    ((10 : Int) ∉ (alignWithLag (1 : Int)
      [((10 : Int), (1 : ℚ)), (11, 2), (12, 3)]).map Prod.fst) := by
  have h := lag_alignment_semantics 1 [(1 : ℚ), 2, 3]
    [((10 : Int), (1 : ℚ)), (11, 2), (12, 3)] (le_refl 1)
  constructor
  · have h3 := h.2.2.1 1 [2, 3]
    simpa using h3
  · have h4 := h.2.2.2 (by decide) 0 (by decide) (by decide)
    simpa using h4

/-! ## Return-transform length -/

theorem dropna_map_some (lvl : List (Int × ℚ)) :
    (lvl.map (fun p => (p.1, some p.2))).filterMap
      (fun p => p.2.map (fun v => (p.1, v))) = lvl := by
  induction lvl with
  | nil => rfl
  | cons a l ih => simp [List.map_cons, List.filterMap_cons, ih]

theorem obsCount_diffAux (f : ℚ → ℚ → ℚ) (p : Int × ℚ) (ys : List (Int × ℚ)) :
    obsCount (diffAux f p ys) = ys.length := by
  induction ys generalizing p with
  | nil => rfl
  | cons y ys ih =>
    have h := ih y
    simp only [obsCount] at h ⊢
    simp [diffAux, List.filterMap_cons, h]

theorem obsCount_diffSeries (f : ℚ → ℚ → ℚ) (xs : List (Int × ℚ)) :
    obsCount (diffSeries f xs) = xs.length - 1 := by
  cases xs with
  | nil => rfl
  | cons x ys =>
    have h := obsCount_diffAux f x ys
    simp only [obsCount] at h ⊢
    simp [diffSeries, List.filterMap_cons, h]

theorem mem_diffAux_tail (f : ℚ → ℚ → ℚ) (p : Int × ℚ) (ys : List (Int × ℚ)) :
    ∀ (d : Int) (w : Option ℚ), (d, w) ∈ diffAux f p ys → ∃ y ∈ ys, y.1 = d := by
  induction ys generalizing p with
  | nil => intro d w h; simp [diffAux] at h
  | cons y ys ih =>
    intro d w h
    cases h with
    | head => exact ⟨y, List.mem_cons_self y ys, rfl⟩
    | tail _ h =>
      obtain ⟨z, hz, hzd⟩ := ih y d w h
      exact ⟨z, List.mem_cons_of_mem y hz, hzd⟩

theorem diffSeries_some_mem_tail (f : ℚ → ℚ → ℚ) (xs : List (Int × ℚ)) (d : Int) (v : ℚ)
    (h : (d, some v) ∈ diffSeries f xs) :
    ∃ x ys, xs = x :: ys ∧ ∃ y ∈ ys, y.1 = d := by
  cases xs with
  | nil => simp [diffSeries] at h
  | cons x ys =>
    cases h with
    | tail _ h => exact ⟨x, ys, rfl, mem_diffAux_tail f x ys d (some v) h⟩

theorem pairwise_head_le (lvl : List (Int × ℚ))
    (hx : (lvl.map Prod.fst).Pairwise (· < ·)) (y : Int × ℚ) (hy : y ∈ lvl)
    (x0 : Int × ℚ) (h0 : lvl.head? = some x0) : x0.1 ≤ y.1 := by
  cases lvl with
  | nil => simp at h0
  | cons x rest =>
    have hx0 : x0 = x := by simpa using h0.symm
    subst hx0
    cases hy with
    | head => exact le_refl _
    | tail _ hy =>
      rw [List.map_cons] at hx
      rcases List.pairwise_cons.mp hx with ⟨hlt, -⟩
      exact le_of_lt (hlt y.1 (List.mem_map.mpr ⟨y, hy, rfl⟩))

theorem diffSeries_first_date_gt (f : ℚ → ℚ → ℚ) (xs : List (Int × ℚ))
    (hx : (xs.map Prod.fst).Pairwise (· < ·)) (d : Int) (v : ℚ)
    (h : (d, some v) ∈ diffSeries f xs) (x0 : Int × ℚ) (h0 : xs.head? = some x0) :
    x0.1 < d := by
  obtain ⟨x, ys, hxs, y, hy, hyd⟩ := diffSeries_some_mem_tail f xs d v h
  subst hxs
  have hx0 : x0 = x := by simpa using h0.symm
  subst hx0
  rw [List.map_cons] at hx
  rcases List.pairwise_cons.mp hx with ⟨hlt, -⟩
  exact hyd ▸ hlt y.1 (List.mem_map.mpr ⟨y, hy, rfl⟩)

/-- Claim C5: on a well-formed level series of length n (finite values,
strictly increasing dates), diff_pp and duration_return produce exactly
n-1 observations, log_return produces (number of positive levels) - 1
observations — at most n-1, with equality when no level is dropped — and
the first date of the source never carries a return observation. -/
theorem compute_returns_length :
    ∀ (lnF : ℚ → ℚ) (dur : Option ℚ) (lvl : List (Int × ℚ)),
    (lvl.map Prod.fst).Pairwise (· < ·) →
    ((∃ rs, compute_returns lnF "diff_pp" dur (lvl.map (fun p => (p.1, some p.2))) =
        .ok rs ∧
        obsCount rs = lvl.length - 1 ∧
        (∀ d v, (d, some v) ∈ rs → ∀ x0, lvl.head? = some x0 → d ≠ x0.1)) ∧
     (∃ rs, compute_returns lnF "duration_return" dur
        (lvl.map (fun p => (p.1, some p.2))) = .ok rs ∧
        obsCount rs = lvl.length - 1 ∧
        (∀ d v, (d, some v) ∈ rs → ∀ x0, lvl.head? = some x0 → d ≠ x0.1)) ∧
     (∃ rs, compute_returns lnF "log_return" dur
        (lvl.map (fun p => (p.1, some p.2))) = .ok rs ∧
        obsCount rs = (lvl.filter (fun p => decide (0 < p.2))).length - 1 ∧
        obsCount rs ≤ lvl.length - 1 ∧
        ((∀ p ∈ lvl, 0 < p.2) → obsCount rs = lvl.length - 1) ∧
        (∀ d v, (d, some v) ∈ rs → ∀ x0, lvl.head? = some x0 → d ≠ x0.1))) := by
  intro lnF dur lvl hpair
  have hlevel := dropna_map_some lvl
  refine ⟨?_, ?_, ?_⟩
  · refine ⟨diffSeries (fun p v => v - p) lvl, ?_, obsCount_diffSeries _ lvl, ?_⟩
    · unfold compute_returns
      rw [hlevel, if_neg (by decide), if_pos rfl]
    · intro d v hm x0 h0
      have hlt := diffSeries_first_date_gt _ lvl hpair d v hm x0 h0
      omega
  · refine ⟨diffSeries
      (fun p v => -(dur.getD DURATION_US10Y) * ((v - p) / 100)) lvl, ?_,
      obsCount_diffSeries _ lvl, ?_⟩
    · unfold compute_returns
      rw [hlevel, if_neg (by decide), if_neg (by decide), if_pos rfl]
    · intro d v hm x0 h0
      have hlt := diffSeries_first_date_gt _ lvl hpair d v hm x0 h0
      omega
  · have hsub : List.Sublist ((lvl.filter (fun p => decide (0 < p.2))).map Prod.fst)
        (lvl.map Prod.fst) :=
      List.Sublist.map _ (List.filter_sublist lvl)
    have hpairf : ((lvl.filter (fun p => decide (0 < p.2))).map Prod.fst).Pairwise (· < ·) :=
      hpair.sublist hsub
    refine ⟨diffSeries (fun p v => lnF v - lnF p)
      (lvl.filter (fun p => decide (0 < p.2))), ?_, obsCount_diffSeries _ _, ?_, ?_, ?_⟩
    · unfold compute_returns
      rw [hlevel, if_pos rfl]
    · rw [obsCount_diffSeries]
      exact Nat.sub_le_sub_right (List.length_filter_le _ lvl) 1
    · intro hpos
      rw [obsCount_diffSeries]
      rw [List.filter_eq_self.mpr (fun p hp => decide_eq_true (hpos p hp))]
    · intro d v hm x0 h0
      cases hflt : lvl.filter (fun p => decide (0 < p.2)) with
      | nil => rw [hflt] at hm; simp [diffSeries] at hm
      | cons f0 frest =>
        rw [hflt] at hm
        have hgt : f0.1 < d := by
          have := diffSeries_first_date_gt (fun p v => lnF v - lnF p) (f0 :: frest)
            (by rw [← hflt]; exact hpairf) d v hm f0 rfl
          exact this
        have hf0 : f0 ∈ lvl := by
          have : f0 ∈ lvl.filter (fun p => decide (0 < p.2)) := by
            rw [hflt]; exact List.mem_cons_self f0 frest
          exact List.mem_of_mem_filter this
        have hle : x0.1 ≤ f0.1 := pairwise_head_le lvl hpair f0 hf0 x0 h0
        omega

/-- Witness for C5: diff_pp on a two-observation level series yields one
return observation. -/
theorem compute_returns_length_witness :
    ∃ rs, compute_returns id "diff_pp" none
        ([((0 : Int), (1 : ℚ)), (1, 2)].map (fun p => (p.1, some p.2))) = .ok rs ∧
      obsCount rs = 1 := by
  obtain ⟨rs, h1, h2, -⟩ :=
    (compute_returns_length id none [((0 : Int), (1 : ℚ)), (1, 2)] (by decide)).1
  exact ⟨rs, h1, h2⟩

/-! ## The monthly harmonizer -/

theorem foldl_min_le_self (xs : List Int) (x : Int) : xs.foldl min x ≤ x := by
  induction xs generalizing x with
  | nil => exact le_refl x
  | cons a xs ih => exact le_trans (ih (min x a)) (min_le_left x a)

theorem foldl_min_le_mem (xs : List Int) (x a : Int) (h : a ∈ xs) :
    xs.foldl min x ≤ a := by
  induction xs generalizing x with
  | nil => simp at h
  | cons b xs ih =>
    cases h with
    | head => exact le_trans (foldl_min_le_self xs (min x a)) (min_le_right x a)
    | tail _ h => exact ih (min x b) h

theorem lt_foldl_min (xs : List Int) (x e : Int) (hx : e < x)
    (h : ∀ a ∈ xs, e < a) : e < xs.foldl min x := by
  induction xs generalizing x with
  | nil => exact hx
  | cons a xs ih =>
    exact ih (min x a) (lt_min hx (h a (List.mem_cons_self a xs)))
      (fun b hb => h b (List.mem_cons_of_mem a hb))

theorem minKeyD_le (m : List (Int × ℚ)) (k : Int) (hk : k ∈ m.map Prod.fst) :
    minKeyD m ≤ k := by
  unfold minKeyD
  cases hm : m.map Prod.fst with
  | nil => rw [hm] at hk; simp at hk
  | cons x xs =>
    rw [hm] at hk
    cases hk with
    | head => exact foldl_min_le_self xs k
    | tail _ hk => exact foldl_min_le_mem xs x k hk

theorem lt_minKeyD (m : List (Int × ℚ)) (e : Int)
    (h : ∀ k ∈ m.map Prod.fst, e < k) (hne : m ≠ []) : e < minKeyD m := by
  unfold minKeyD
  cases hm : m.map Prod.fst with
  | nil => exact absurd (List.map_eq_nil.mp hm) hne
  | cons x xs =>
    have hx : e < x := h x (by rw [hm]; exact List.mem_cons_self x xs)
    exact lt_foldl_min xs x e hx
      (fun a ha => h a (by rw [hm]; exact List.mem_cons_of_mem x ha))

theorem mem_intRange (a b d : Int) : d ∈ intRange a b ↔ (a ≤ d ∧ d ≤ b) := by
  simp only [intRange, List.mem_map, List.mem_range]
  constructor
  · rintro ⟨i, hi, rfl⟩
    omega
  · rintro ⟨h1, h2⟩
    exact ⟨(d - a).toNat, by omega, by omega⟩

theorem dictGet_eq_none (m : List (Int × ℚ)) (d : Int)
    (h : ∀ p ∈ m, p.1 ≠ d) : dictGet m d = none := by
  unfold dictGet
  have : m.filter (fun p => p.1 == d) = [] := by
    rw [List.filter_eq_nil]
    intro p hp
    simpa using h p hp
  rw [this]
  rfl

theorem filter_key_of_nodup (m : List (Int × ℚ)) (hnd : (m.map Prod.fst).Nodup)
    (k : Int) (v : ℚ) (h : (k, v) ∈ m) :
    m.filter (fun p => p.1 == k) = [(k, v)] := by
  induction m with
  | nil => simp at h
  | cons p m' ih =>
    rw [List.map_cons, List.nodup_cons] at hnd
    cases h with
    | head =>
      rw [List.filter_cons_of_pos (by simp)]
      have hrest : m'.filter (fun q => q.1 == k) = [] := by
        rw [List.filter_eq_nil]
        intro q hq hqk
        exact hnd.1 (List.mem_map.mpr ⟨q, hq, by simpa using hqk⟩)
      rw [hrest]
    | tail _ h =>
      have hpk : p.1 ≠ k := by
        intro hpk
        exact hnd.1 (List.mem_map.mpr ⟨(k, v), h, by rw [hpk]⟩)
      rw [List.filter_cons_of_neg (by simpa using hpk)]
      exact ih hnd.2 h

theorem dictGet_of_nodup_mem (m : List (Int × ℚ)) (hnd : (m.map Prod.fst).Nodup)
    (k : Int) (v : ℚ) (h : (k, v) ∈ m) : dictGet m k = some v := by
  unfold dictGet
  rw [filter_key_of_nodup m hnd k v h]
  rfl

theorem buildRetMap_keys (obs : List (Date × ℚ)) (lag : Int) :
    (buildRetMap obs lag).map Prod.fst =
      obs.map (fun o => rataDie (addMonths o.1 lag)) := by
  unfold buildRetMap
  rw [List.map_map]
  rfl

/-- Claim C9 (amended): when every observation's release date falls after
end_date, the harmonizer returns an empty series; being a total function,
it never raises. -/
theorem harmonizer_empty_after_end :
    ∀ (obs : List (Date × ℚ)) (ed : Int) (sd : Option Int) (lag : Int),
    obs ≠ [] →
    (∀ o ∈ obs, ed < rataDie (addMonths o.1 lag)) →
    expand_monthly_to_daily_ret obs ed sd lag = [] := by
  intro obs ed sd lag hne hgt
  have hmk : ed < minKeyD (buildRetMap obs lag) := by
    apply lt_minKeyD
    · intro k hk
      rw [buildRetMap_keys] at hk
      obtain ⟨o, ho, rfl⟩ := List.mem_map.mp hk
      exact hgt o ho
    · intro hmap
      apply hne
      cases obs with
      | nil => rfl
      | cons a l => simp [buildRetMap] at hmap
  cases obs with
  | nil => exact absurd rfl hne
  | cons o0 obs' =>
    simp only [expand_monthly_to_daily_ret]
    rw [if_pos (lt_of_lt_of_le hmk (le_max_right _ _))]

/-- Counterexample for C9: a single observation whose release date falls
before the requested window start yields a non-empty, all-zero series,
not the empty series the claim promises. -/
theorem harmonizer_empty_window_counterexample :
    (([((⟨2024, 1, 31⟩ : Date), (1 / 250 : ℚ))] : List (Date × ℚ)) ≠ []) ∧
    rataDie (addMonths ⟨2024, 1, 31⟩ 1) < rataDie ⟨2024, 6, 1⟩ ∧
    rataDie ⟨2024, 6, 1⟩ ≤ rataDie ⟨2024, 12, 31⟩ ∧
    expand_monthly_to_daily_ret [(⟨2024, 1, 31⟩, 1 / 250)]
      (rataDie ⟨2024, 12, 31⟩) (some (rataDie ⟨2024, 6, 1⟩)) 1 ≠ [] := by
  exact ⟨by decide, by decide, by decide, by decide⟩

/-- Witness for C9 (amended): one observation releasing after end_date
gives the empty series. -/
theorem harmonizer_empty_after_end_witness :
    expand_monthly_to_daily_ret [((⟨2024, 1, 31⟩ : Date), (1 : ℚ))]
      (rataDie ⟨2024, 1, 31⟩) none 1 = [] := by
  exact harmonizer_empty_after_end [(⟨2024, 1, 31⟩, 1)] (rataDie ⟨2024, 1, 31⟩) none 1
    (by decide) (by decide)

/-- Counterexample for C4: with a non-empty observation set whose only
release date falls after end_date, the harmonized series is empty, so it
does not cover a daily calendar ending at end_date. -/
theorem harmonizer_calendar_counterexample :
    (([((⟨2024, 1, 31⟩ : Date), (1 / 250 : ℚ))] : List (Date × ℚ)) ≠ []) ∧
    expand_monthly_to_daily_ret [(⟨2024, 1, 31⟩, 1 / 250)]
      (rataDie ⟨2023, 12, 31⟩) none 1 = [] := by
  exact ⟨by decide, by decide⟩

/-- Claim C4 (amended): for a non-empty observation set with distinct
release dates, at least one release date at or before end_date, and a
window start not beyond end_date, the harmonized series covers exactly
the contiguous daily calendar from max(start_date, earliest release) to
end_date, carries each in-range observation's value on its release date,
and zero on every other day of the calendar. -/
theorem harmonizer_release_day_amended :
    ∀ (obs : List (Date × ℚ)) (ed : Int) (sd : Option Int) (lag : Int),
    obs ≠ [] →
    ((buildRetMap obs lag).map Prod.fst).Nodup →
    (∃ o ∈ obs, rataDie (addMonths o.1 lag) ≤ ed) →
    (∀ v, sd = some v → v ≤ ed) →
    ((∀ d : Int, d ∈ (expand_monthly_to_daily_ret obs ed sd lag).map Prod.fst ↔
        (max (sd.getD (minKeyD (buildRetMap obs lag))) (minKeyD (buildRetMap obs lag)) ≤ d ∧
         d ≤ ed)) ∧
     ed ∈ (expand_monthly_to_daily_ret obs ed sd lag).map Prod.fst ∧
     (∀ o ∈ obs,
        max (sd.getD (minKeyD (buildRetMap obs lag))) (minKeyD (buildRetMap obs lag)) ≤
          rataDie (addMonths o.1 lag) →
        rataDie (addMonths o.1 lag) ≤ ed →
        (rataDie (addMonths o.1 lag), o.2) ∈ expand_monthly_to_daily_ret obs ed sd lag) ∧
     (∀ d : Int,
        max (sd.getD (minKeyD (buildRetMap obs lag))) (minKeyD (buildRetMap obs lag)) ≤ d →
        d ≤ ed →
        (∀ o ∈ obs, rataDie (addMonths o.1 lag) ≠ d) →
        (d, (0 : ℚ)) ∈ expand_monthly_to_daily_ret obs ed sd lag)) := by
  intro obs ed sd lag hne hnd hex hsd
  have hmkle : minKeyD (buildRetMap obs lag) ≤ ed := by
    obtain ⟨o, ho, hole⟩ := hex
    exact le_trans
      (minKeyD_le _ _ (by rw [buildRetMap_keys]; exact List.mem_map.mpr ⟨o, ho, rfl⟩)) hole
  have hstart : max (sd.getD (minKeyD (buildRetMap obs lag)))
      (minKeyD (buildRetMap obs lag)) ≤ ed := by
    apply max_le ?_ hmkle
    cases sd with
    | none => simpa using hmkle
    | some v => simpa using hsd v rfl
  have hexp : expand_monthly_to_daily_ret obs ed sd lag =
      (intRange (max (sd.getD (minKeyD (buildRetMap obs lag)))
        (minKeyD (buildRetMap obs lag))) ed).map
        (fun d => (d, (dictGet (buildRetMap obs lag) d).getD 0)) := by
    cases obs with
    | nil => exact absurd rfl hne
    | cons o0 obs' =>
      simp only [expand_monthly_to_daily_ret]
      rw [if_neg (by omega)]
  refine ⟨?_, ?_, ?_, ?_⟩
  · intro d
    rw [hexp]
    constructor
    · intro hd
      obtain ⟨p, hp, hpd⟩ := List.mem_map.mp hd
      obtain ⟨i, hi, rfl⟩ := List.mem_map.mp hp
      rw [← hpd]
      exact (mem_intRange _ _ _).mp hi
    · intro hd
      exact List.mem_map.mpr ⟨(d, (dictGet (buildRetMap obs lag) d).getD 0),
        List.mem_map.mpr ⟨d, (mem_intRange _ _ _).mpr hd, rfl⟩, rfl⟩
  · rw [hexp]
    exact List.mem_map.mpr ⟨(ed, (dictGet (buildRetMap obs lag) ed).getD 0),
      List.mem_map.mpr ⟨ed, (mem_intRange _ _ _).mpr ⟨hstart, le_refl ed⟩, rfl⟩, rfl⟩
  · intro o ho h1 h2
    rw [hexp]
    have hdict : dictGet (buildRetMap obs lag) (rataDie (addMonths o.1 lag)) = some o.2 :=
      dictGet_of_nodup_mem _ hnd _ _ (List.mem_map.mpr ⟨o, ho, rfl⟩)
    apply List.mem_map.mpr
    refine ⟨rataDie (addMonths o.1 lag), (mem_intRange _ _ _).mpr ⟨h1, h2⟩, ?_⟩
    rw [hdict]
    rfl
  · intro d h1 h2 hno
    rw [hexp]
    have hdict : dictGet (buildRetMap obs lag) d = none := by
      apply dictGet_eq_none
      intro p hp
      obtain ⟨o, ho, rfl⟩ := List.mem_map.mp hp
      exact hno o ho
    apply List.mem_map.mpr
    refine ⟨d, (mem_intRange _ _ _).mpr ⟨h1, h2⟩, ?_⟩
    rw [hdict]
    rfl

/-- Witness for C4 (amended): the CPI-style scenario — an observation
dated 2024-01-31 with value 0.004 and a one-month release lag puts 0.004
on 2024-02-29 and zero on other days of the calendar. -/
theorem harmonizer_release_day_amended_witness :
    (rataDie (addMonths ⟨2024, 1, 31⟩ 1), (1 / 250 : ℚ)) ∈
      expand_monthly_to_daily_ret [(⟨2024, 1, 31⟩, 1 / 250)]
        (rataDie ⟨2024, 3, 3⟩) none 1 ∧
    ((rataDie ⟨2024, 3, 3⟩ : Int), (0 : ℚ)) ∈
      expand_monthly_to_daily_ret [(⟨2024, 1, 31⟩, 1 / 250)]
        (rataDie ⟨2024, 3, 3⟩) none 1 := by
  have h := harmonizer_release_day_amended [(⟨2024, 1, 31⟩, 1 / 250)]
    (rataDie ⟨2024, 3, 3⟩) none 1 (by simp) (by decide)
    ⟨(⟨2024, 1, 31⟩, 1 / 250), List.mem_cons_self _ _, by decide⟩
    (fun v hv => Option.noConfusion hv)
  refine ⟨h.2.2.1 (⟨2024, 1, 31⟩, 1 / 250) (List.mem_cons_self _ _) (by decide) (by decide),
    h.2.2.2 (rataDie ⟨2024, 3, 3⟩) (by decide) (by decide) ?_⟩
  intro o ho
  rw [List.mem_singleton] at ho
  subst ho
  decide

end InvLog
